import Mathlib

/-!
Verification development for the sandboxed file-organizer backend
(`docker-backend/src/services.ts`, `routes.ts`, `agent.ts`).

The TypeScript source is shallowly embedded: pure fragments become Lean
functions, the filesystem is passed explicitly, and host builtins
(`path.resolve`, `String.prototype.startsWith`, `JSON.parse`,
`fs-extra.move`) are modelled by executable Lean functions over
`List Char` so that every definition evaluates in the kernel.

JavaScript strings are modelled as Lean `String`s (sequences of Unicode
scalar values; the UTF-16 surrogate-pair representation is not modelled,
which is faithful for all inputs appearing below). JavaScript numbers
appearing in the code are integers (byte sizes, epoch milliseconds), so
they are modelled as `Nat`/`Int`; `Math.floor` of an integer quotient is
`Int.fdiv`. JavaScript truthiness is modelled where the code relies on it
(`0`, `""`, `null`, `undefined` are falsy).
-/

/-! ## Basic character-list utilities (models of JS string builtins) -/

/-- `leadsChars p s` : the char list `p` is an initial run of `s`.
Model of `String.prototype.startsWith` at the char level. -/
def leadsChars : List Char → List Char → Bool
  | [], _ => true
  | _ :: _, [] => false
  | a :: as, b :: bs => a == b && leadsChars as bs

/-- Model of JS `s.startsWith(pat)`. -/
def jsStartsWith (s pat : String) : Bool :=
  leadsChars pat.data s.data

/-- Model of JS `s.endsWith(pat)` (used for the `\.DS_Store$` regex test). -/
def jsEndsWith (s pat : String) : Bool :=
  leadsChars pat.data.reverse s.data.reverse

/-- Index of the first occurrence of `needle` inside `hay`, if any. -/
def subIdx (hay needle : List Char) : Option Nat :=
  match hay with
  | [] => if needle.isEmpty then some 0 else none
  | _ :: rest =>
    if leadsChars needle hay then some 0
    else (subIdx rest needle).map (· + 1)

/-- `containsSub hay needle` : `needle` occurs somewhere in `hay`
(model of JS `String.prototype.includes`). -/
def containsSub (hay needle : List Char) : Bool :=
  (subIdx hay needle).isSome

/-- Model of JS `s.includes(pat)`. -/
def jsIncludes (s pat : String) : Bool :=
  containsSub s.data pat.data

/-- Index of the first occurrence of character `c` (JS `indexOf`). -/
def charIdx : List Char → Char → Option Nat
  | [], _ => none
  | a :: rest, c => if a == c then some 0 else (charIdx rest c).map (· + 1)

/-- Index of the last occurrence of character `c` (JS `lastIndexOf`). -/
def charIdxLast (cs : List Char) (c : Char) : Option Nat :=
  match charIdx cs.reverse c with
  | some k => some (cs.length - 1 - k)
  | none => none

/-- Model of JS `s.toLowerCase()` (codepoint-wise lowering suffices for the
ASCII identifiers, extensions and instruction keywords used by the code). -/
def jsToLower (s : String) : String :=
  String.mk (s.data.map Char.toLower)

/-! ## POSIX path model

`path.resolve(base, rel)` with `base` absolute and `rel` relative is:
split on `/`, drop empty and `.` segments, let `..` pop one segment
(clamping at the root), then render with a leading `/`. -/

/-- Split a char list on `/` into raw segments (may contain empties). -/
def splitSlash : List Char → List Char → List (List Char)
  | [], acc => [acc.reverse]
  | c :: cs, acc =>
    if c == '/' then acc.reverse :: splitSlash cs []
    else splitSlash cs (c :: acc)

/-- Path segments of a string: split on `/`, dropping empty segments. -/
def splitPath (s : String) : List String :=
  ((splitSlash s.data []).filter (· ≠ [])).map String.mk

/-- Normalize a segment list: drop `.`, let `..` pop (clamped at root),
as POSIX `path.resolve`/`path.posix.normalize` do for absolute paths. -/
def normalizeSegs (segs : List String) : List String :=
  segs.foldl
    (fun acc s =>
      if s = "." then acc
      else if s = ".." then acc.dropLast
      else acc ++ [s])
    []

/-- Auxiliary renderer: `/seg` for each segment. -/
def renderTail : List String → String
  | [] => ""
  | s :: rest => "/" ++ s ++ renderTail rest

/-- Render an absolute path from normalized segments (`/` for the root),
as `path.resolve` returns it. -/
def renderAbs : List String → String
  | [] => "/"
  | s :: rest => "/" ++ s ++ renderTail rest

/-- The segments of the absolute path that
`path.resolve(safeRoot, '.' + rel)` produces, where `safeRoot` is the
(already normalized) sandbox root. String concatenation `'.' + rel` is
kept literally: for `rel` starting with `/` it yields `./...`, for other
inputs it mangles the first segment exactly as the JS code does. -/
def resolveSegs (root : List String) (rel : String) : List String :=
  normalizeSegs (normalizeSegs root ++ splitPath ("." ++ rel))

/-- `isUnder target root` : `root` is a segment-wise ancestor of (or equal
to) `target`. This is the claim-side notion of "descendant of or equal to
the sandbox root" over fully resolved, normalized paths. -/
def isUnder : List String → List String → Bool
  | _, [] => true
  | [], _ :: _ => false
  | t :: ts, r :: rs => t == r && isUnder ts rs

/-- Embedding of `sanitizePath` (`services.ts`):

```ts
function sanitizePath(rel: string): string {
  const safeRoot = path.resolve(DEMO_FS_PATH);
  const target = path.resolve(safeRoot, '.' + rel);
  if (!target.startsWith(safeRoot)) {
    throw new Error('Path escapes demo filesystem');
  }
  return target;
}
```

`root` are the segments of `DEMO_FS_PATH` (configured at startup). -/
def sanitizePath (root : List String) (rel : String) : Except String String :=
  if jsStartsWith (renderAbs (resolveSegs root rel)) (renderAbs (normalizeSegs root))
  then Except.ok (renderAbs (resolveSegs root rel))
  else Except.error "Path escapes demo filesystem"

/-! ## Data model

`FileNode` from `services.ts`, with the `type` discriminant encoded by the
constructor. `buildTree` always populates `size`, `ext`, `atimeMs`,
`mtimeMs` for files and `children` for directories, so those fields are
total here. Children are a mutual list type so that all recursions are
structural and kernel-evaluable. -/

mutual
inductive FileNode where
  | file (name path : String) (size : Nat) (ext : String)
      (atimeMs mtimeMs : Int) : FileNode
  | dir (name path : String) (children : NodeList)
      (atimeMs mtimeMs : Int) : FileNode
deriving DecidableEq, Repr

inductive NodeList where
  | nil : NodeList
  | cons (head : FileNode) (tail : NodeList) : NodeList
deriving DecidableEq, Repr
end

/-- The per-file record exposed by flattening (the file leaves of the
snapshot; `flattenFiles` in the source returns file nodes only, and all
consumers read exactly these fields). -/
structure FInfo where
  name : String
  path : String
  size : Nat
  ext : String
  atimeMs : Int
  mtimeMs : Int
deriving DecidableEq, Repr

mutual
/-- Embedding of `flattenFiles` (`services.ts`): depth-first file leaves. -/
def flattenFiles : FileNode → List FInfo
  | .file n p s e a m => [⟨n, p, s, e, a, m⟩]
  | .dir _ _ cs _ _ => flattenList cs

def flattenList : NodeList → List FInfo
  | .nil => []
  | .cons x xs => flattenFiles x ++ flattenList xs
end

/-- `MoveOp` from `services.ts`. -/
structure MoveOp where
  frm : String
  «to» : String
  reason : String
deriving DecidableEq, Repr

/-- Confidence levels of `DeleteSuggestion`. -/
inductive Confidence where
  | low
  | medium
  | high
deriving DecidableEq, Repr

/-- `DeleteSuggestion` from `services.ts` (`sizeBytes` is optional there
and omitted by the duplicate rule). -/
structure DeleteSuggestion where
  file : String
  reason : String
  confidence : Confidence
  sizeBytes : Option Nat
  safeToDelete : Bool
deriving DecidableEq, Repr

/-- `Plan` from `services.ts`. -/
structure Plan where
  moves : List MoveOp
  deletions : List DeleteSuggestion
deriving DecidableEq, Repr

/-! ## Garbage detector (`detectGarbage`, `services.ts`)

The loop over the flattened files is a left fold over the state
(suggestions so far, hash→paths association in key-insertion order).
The content hash of the file at absolute path `a` is abstracted by an
oracle `hashOf : String → String` (equal contents, equal hash). -/

/-- `(file.ext || '').toLowerCase()`. -/
def jsExtOf (f : FInfo) : String := jsToLower f.ext

/-- `file.atimeMs ? Math.floor((now - file.atimeMs) / 86_400_000) : 0`
(`0` is falsy in JS, so a zero atime yields age `0`). -/
def jsAgeDays (now atime : Int) : Int :=
  if atime ≠ 0 then Int.fdiv (now - atime) 86400000 else 0

/-- The junk-artifact test:
`['tmp','log','cache','bak','old'].includes(ext) || /(^~|\.DS_Store$)/.test(file.name)`. -/
def junkMatch (f : FInfo) : Bool :=
  ["tmp", "log", "cache", "bak", "old"].contains (jsExtOf f)
    || jsStartsWith f.name "~" || jsEndsWith f.name ".DS_Store"

/-- The junk-artifact suggestion pushed by the first rule. -/
def junkSug (now : Int) (f : FInfo) : DeleteSuggestion :=
  { file := f.path
    reason := "Temporary or system artifact ("
      ++ (if jsExtOf f = "" then f.name else jsExtOf f)
      ++ "), last accessed " ++ toString (jsAgeDays now f.atimeMs) ++ " days ago"
    confidence := .high
    sizeBytes := some f.size
    safeToDelete := true }

/-- The stale-large-file test:
`file.size && file.size > 50*1024*1024 && ageDays > 90`. -/
def staleMatch (now : Int) (f : FInfo) : Bool :=
  f.size ≠ 0 && f.size > 50 * 1024 * 1024 && jsAgeDays now f.atimeMs > 90

/-- `(file.size / (1024*1024)).toFixed(1)`: megabytes with one decimal.
The float formatting is approximated by rounding the tenths to nearest
(no claim below inspects this string). -/
def mbTenths (size : Nat) : String :=
  let t := (size * 10 + 524288) / 1048576
  toString (t / 10) ++ "." ++ toString (t % 10)

/-- The stale-large-file suggestion pushed by the second rule. -/
def staleSug (now : Int) (f : FInfo) : DeleteSuggestion :=
  { file := f.path
    reason := "Large file (" ++ mbTenths f.size ++ " MB) rarely accessed ("
      ++ toString (jsAgeDays now f.atimeMs) ++ " days)"
    confidence := .medium
    sizeBytes := some f.size
    safeToDelete := false }

/-- The hashing guard: `file.size && file.size < 20*1024*1024`
(zero-size files are falsy and are never hashed). -/
def hashMatch (f : FInfo) : Bool :=
  f.size ≠ 0 && f.size < 20 * 1024 * 1024

/-- A duplicate-content suggestion naming the first group member. -/
def dupSug (original dup : String) : DeleteSuggestion :=
  { file := dup
    reason := "Duplicate of " ++ original ++ " (same content hash)"
    confidence := .high
    sizeBytes := none
    safeToDelete := true }

/-- The hash→paths association (`hashToFile`), in key-insertion order as a
JS object with non-index keys preserves it. -/
abbrev HashGroups := List (String × List String)

/-- `hashToFile[hash] = hashToFile[hash] || []; hashToFile[hash].push(path)`. -/
def upsertGroup : HashGroups → String → String → HashGroups
  | [], h, p => [(h, [p])]
  | (k, ps) :: rest, h, p =>
    if k = h then (k, ps ++ [p]) :: rest else (k, ps) :: upsertGroup rest h p

/-- The absolute path `sanitizePath(file.path)`, defaulting after an
(impossible for snapshot paths, see `detectFilesE`) sanitize failure. -/
def absOf (root : List String) (p : String) : String :=
  match sanitizePath root p with
  | .ok a => a
  | .error _ => ""

/-- One iteration of the `for (const file of allFiles)` loop, ignoring the
exception path (see `detectStepE`): junk rule (with `continue`), stale
rule, then hash accumulation. -/
def detectStep (now : Int) (root : List String) (hashOf : String → String)
    (st : List DeleteSuggestion × HashGroups) (f : FInfo) :
    List DeleteSuggestion × HashGroups :=
  if junkMatch f then (st.1 ++ [junkSug now f], st.2)
  else
    let s1 := if staleMatch now f then st.1 ++ [staleSug now f] else st.1
    let g1 := if hashMatch f then upsertGroup st.2 (hashOf (absOf root f.path)) f.path
              else st.2
    (s1, g1)

/-- One iteration including the `sanitizePath` call that the source makes
for every file before any rule (it throws on escaping paths). -/
def detectStepE (now : Int) (root : List String) (hashOf : String → String)
    (st : Except String (List DeleteSuggestion × HashGroups)) (f : FInfo) :
    Except String (List DeleteSuggestion × HashGroups) :=
  match st with
  | .error e => .error e
  | .ok s =>
    match sanitizePath root f.path with
    | .error e => .error e
    | .ok _ => .ok (detectStep now root hashOf s f)

/-- The trailing duplicate pass:
`for files of Object.values(hashToFile): if (files.length > 1) for i in 1..`. -/
def dupExpand (g : HashGroups) : List DeleteSuggestion :=
  g.flatMap fun e =>
    match e.2 with
    | [] => []
    | p0 :: rest => rest.map (dupSug p0)

/-- The pure result of `detectGarbage` on an already-flattened file list
(meaningful when every path sanitizes, see `detectFilesE_ok`). -/
def detectFiles (now : Int) (root : List String) (hashOf : String → String)
    (files : List FInfo) : List DeleteSuggestion :=
  let st := files.foldl (detectStep now root hashOf) ([], [])
  st.1 ++ dupExpand st.2

/-- Embedding of `detectGarbage` on a flattened file list, including the
exception on a non-sanitizable path. -/
def detectFilesE (now : Int) (root : List String) (hashOf : String → String)
    (files : List FInfo) : Except String (List DeleteSuggestion) :=
  (files.foldl (detectStepE now root hashOf) (.ok ([], []))).map
    fun st => st.1 ++ dupExpand st.2

/-- Embedding of `detectGarbage` (`services.ts`): flatten the snapshot of
the sandbox root (the tree that `buildTree(DEMO_FS_PATH)` read) and run
the rules. -/
def detectGarbage (now : Int) (root : List String) (hashOf : String → String)
    (tree : FileNode) : Except String (List DeleteSuggestion) :=
  detectFilesE now root hashOf (flattenFiles tree)

/-! ### Detector decomposition

The loop is decomposed into a per-file suggestion function and a pure
hash-pair accumulation, making order and multiplicity of suggestions
explicit. -/

/-- Suggestions the loop body pushes for one file: the junk rule
short-circuits (`continue`), otherwise the stale rule may fire. -/
def perFileSugs (now : Int) (f : FInfo) : List DeleteSuggestion :=
  if junkMatch f then [junkSug now f]
  else if staleMatch now f then [staleSug now f] else []

/-- A file reaches the hashing statement iff it is not junk (the junk rule
`continue`s) and passes the size guard. -/
def hashedPred (now : Int) (f : FInfo) : Bool :=
  !junkMatch f && hashMatch f

/-- The (hash, path) pair a file contributes to `hashToFile`, if any. -/
def hashPairOf (now : Int) (root : List String) (hashOf : String → String)
    (f : FInfo) : Option (String × String) :=
  if hashedPred now f then some (hashOf (absOf root f.path), f.path) else none

/-- All (hash, path) pairs contributed by a file list, in order. -/
def hashPairs (now : Int) (root : List String) (hashOf : String → String)
    (files : List FInfo) : List (String × String) :=
  files.filterMap (hashPairOf now root hashOf)

/-- Folding `upsertGroup` over a pair list. -/
def extendGroups (g : HashGroups) (pairs : List (String × String)) : HashGroups :=
  pairs.foldl (fun acc pr => upsertGroup acc pr.1 pr.2) g

/-- The `hashToFile` association after the loop. -/
def detectGroups (now : Int) (root : List String) (hashOf : String → String)
    (files : List FInfo) : HashGroups :=
  (files.foldl (detectStep now root hashOf) ([], [])).2

/-- First entry for a key in the association (JS object property read). -/
def entryFor : HashGroups → String → Option (List String)
  | [], _ => none
  | (k, ps) :: rest, h => if k = h then some ps else entryFor rest h

/-- Option/list combination describing one key of the association after a
pair list has been folded in. -/
def combineE (o : Option (List String)) (l : List String) : Option (List String) :=
  if l.isEmpty then o else some (o.getD [] ++ l)
/-! ## JSON value model and a model of `JSON.parse`

`agent.ts` feeds raw model output through `JSON.parse`. The parser below
implements the JSON grammar (value, object, array, string with escapes,
number, whitespace) over `List Char`, with a structural fuel argument
bounding nesting so that everything evaluates in the kernel; the fuel
passed by `jsonParse` exceeds the number of parsing steps possible for the
input length. Number literals are kept as their lexeme (no claim inspects
numeric values). `\uXXXX` escapes for surrogate code units are not
modelled. -/

inductive Json where
  | null
  | bool (b : Bool)
  | num (lit : String)
  | str (s : String)
  | arr (elems : List Json)
  | obj (members : List (String × Json))

def jsonWsChar (c : Char) : Bool :=
  c == ' ' || c == '\t' || c == '\n' || c == '\r'

def skipWs (cs : List Char) : List Char :=
  cs.dropWhile jsonWsChar

def isDigit (c : Char) : Bool :=
  '0' ≤ c && c ≤ '9'

def hexVal (c : Char) : Option Nat :=
  if '0' ≤ c ∧ c ≤ '9' then some (c.toNat - 48)
  else if 'a' ≤ c ∧ c ≤ 'f' then some (c.toNat - 87)
  else if 'A' ≤ c ∧ c ≤ 'F' then some (c.toNat - 55)
  else none

def parseStringBody : List Char → List Char → Option (String × List Char)
  | [], _ => none
  | '"' :: rest, acc => some (String.mk acc.reverse, rest)
  | '\\' :: 'u' :: a :: b :: c :: d :: rest, acc =>
    match hexVal a, hexVal b, hexVal c, hexVal d with
    | some x1, some x2, some x3, some x4 =>
      let n := ((x1 * 16 + x2) * 16 + x3) * 16 + x4
      if n < 0xd800 then parseStringBody rest (Char.ofNat n :: acc) else none
    | _, _, _, _ => none
  | '\\' :: e :: rest, acc =>
    if e == '"' then parseStringBody rest ('"' :: acc)
    else if e == '\\' then parseStringBody rest ('\\' :: acc)
    else if e == '/' then parseStringBody rest ('/' :: acc)
    else if e == 'b' then parseStringBody rest ('\x08' :: acc)
    else if e == 'f' then parseStringBody rest ('\x0c' :: acc)
    else if e == 'n' then parseStringBody rest ('\n' :: acc)
    else if e == 'r' then parseStringBody rest ('\x0d' :: acc)
    else if e == 't' then parseStringBody rest ('\t' :: acc)
    else none
  | c :: rest, acc =>
    if c.toNat < 0x20 then none else parseStringBody rest (c :: acc)

def spanDigits : List Char → List Char × List Char
  | [] => ([], [])
  | c :: rest =>
    if isDigit c then
      let pr := spanDigits rest
      (c :: pr.1, pr.2)
    else ([], c :: rest)

def parseFrac (cs : List Char) : Option (List Char × List Char) :=
  match cs with
  | '.' :: r =>
    match spanDigits r with
    | ([], _) => none
    | (ds, r2) => some ('.' :: ds, r2)
  | _ => some ([], cs)

def parseExp (cs : List Char) : Option (List Char × List Char) :=
  match cs with
  | c :: r =>
    if c == 'e' || c == 'E' then
      let pr : List Char × List Char :=
        match r with
        | s :: r2 => if s == '+' || s == '-' then ([s], r2) else ([], r)
        | [] => ([], r)
      match spanDigits pr.2 with
      | ([], _) => none
      | (ds, r2) => some (c :: (pr.1 ++ ds), r2)
    else some ([], cs)
  | [] => some ([], [])

def parseNumber (cs : List Char) : Option (String × List Char) :=
  let pr : List Char × List Char :=
    match cs with
    | '-' :: r => (['-'], r)
    | _ => ([], cs)
  match spanDigits pr.2 with
  | ([], _) => none
  | (ds, r1) =>
    match ds with
    | '0' :: _ :: _ => none
    | _ =>
      match parseFrac r1 with
      | none => none
      | some (fr, r2) =>
        match parseExp r2 with
        | none => none
        | some (ex, r3) => some (String.mk (pr.1 ++ ds ++ fr ++ ex), r3)

mutual
def parseValue : Nat → List Char → Option (Json × List Char)
  | 0, _ => none
  | fuel + 1, cs =>
    match skipWs cs with
    | 'n' :: 'u' :: 'l' :: 'l' :: rest => some (.null, rest)
    | 't' :: 'r' :: 'u' :: 'e' :: rest => some (.bool true, rest)
    | 'f' :: 'a' :: 'l' :: 's' :: 'e' :: rest => some (.bool false, rest)
    | '"' :: rest => (parseStringBody rest []).map (fun pr => (.str pr.1, pr.2))
    | '[' :: rest =>
      match skipWs rest with
      | ']' :: r2 => some (.arr [], r2)
      | _ => (parseElems fuel rest).map (fun pr => (.arr pr.1, pr.2))
    | '\x7b' :: rest =>
      match skipWs rest with
      | '\x7d' :: r2 => some (.obj [], r2)
      | _ => (parseMembers fuel rest).map (fun pr => (.obj pr.1, pr.2))
    | cs2 => (parseNumber cs2).map (fun pr => (.num pr.1, pr.2))

def parseElems : Nat → List Char → Option (List Json × List Char)
  | 0, _ => none
  | fuel + 1, cs =>
    match parseValue fuel cs with
    | none => none
    | some (v, rest) =>
      match skipWs rest with
      | ',' :: r2 =>
        match parseElems fuel r2 with
        | none => none
        | some (vs, r3) => some (v :: vs, r3)
      | ']' :: r2 => some ([v], r2)
      | _ => none

def parseMembers : Nat → List Char → Option (List (String × Json) × List Char)
  | 0, _ => none
  | fuel + 1, cs =>
    match skipWs cs with
    | '"' :: rest =>
      match parseStringBody rest [] with
      | none => none
      | some (k, r1) =>
        match skipWs r1 with
        | ':' :: r2 =>
          match parseValue fuel r2 with
          | none => none
          | some (v, r3) =>
            match skipWs r3 with
            | ',' :: r4 =>
              match parseMembers fuel r4 with
              | none => none
              | some (ms, r5) => some ((k, v) :: ms, r5)
            | '\x7d' :: r4 => some ([(k, v)], r4)
            | _ => none
        | _ => none
    | _ => none
end

/-- Model of `JSON.parse(text)`: parse one value, allow trailing
whitespace only; `none` models the thrown `SyntaxError`. -/
def jsonParse (text : String) : Option Json :=
  match parseValue (2 * text.data.length + 8) text.data with
  | some (v, rest) => if (skipWs rest).isEmpty then some v else none
  | none => none

/-! ## Permissive JSON extraction (`extractJson`, `agent.ts`) -/

/-- JS regex `\s` character class (ASCII part plus the Unicode spaces
it matches). -/
def regexWsChar (c : Char) : Bool :=
  c == ' ' || c == '\t' || c == '\n' || c == '\x0d' || c == '\x0b' || c == '\x0c'
    || c.toNat == 0xa0 || c.toNat == 0x1680
    || (0x2000 ≤ c.toNat && c.toNat ≤ 0x200a)
    || c.toNat == 0x2028 || c.toNat == 0x2029 || c.toNat == 0x202f
    || c.toNat == 0x205f || c.toNat == 0x3000 || c.toNat == 0xfeff

/-- Model of `text.match(/```json\s*([\s\S]*?)```/i)`, returning the
captured group: the first case-insensitive occurrence of the tag
"```json", maximal whitespace skipped, then a lazy match up to the first
following "```". -/
def fencedJsonBlock (text : String) : Option String :=
  let cs := text.data
  let low := cs.map Char.toLower
  match subIdx low ("```json".data) with
  | none => none
  | some i =>
    let after := cs.drop (i + 7)
    match subIdx after ("```".data) with
    | none => none
    | some j => some (String.mk ((after.take j).dropWhile regexWsChar))

/-- Model of the widest-braces strategy:
`text.slice(text.indexOf('\x7b'), text.lastIndexOf('\x7d') + 1)` guarded by
`lastCurly > firstCurly`. -/
def widestBraces (text : String) : Option String :=
  let cs := text.data
  match charIdx cs '\x7b', charIdxLast cs '\x7d' with
  | some i, some j =>
    if i < j then some (String.mk ((cs.drop i).take (j + 1 - i))) else none
  | _, _ => none

/-- Embedding of `extractJson` (`agent.ts`): whole-text parse, then the
```json-tagged fenced block (attempted only when the capture is nonempty —
`codeBlock[1]` must be truthy), then the widest braces slice. -/
def extractJson (text : String) : Option Json :=
  match jsonParse text with
  | some v => some v
  | none =>
    match fencedJsonBlock text with
    | some c =>
      if c ≠ "" then
        match jsonParse c with
        | some v => some v
        | none => (widestBraces text).bind jsonParse
      else (widestBraces text).bind jsonParse
    | none => (widestBraces text).bind jsonParse

/-! ## Synthesis tiers (`tryLlmOrganize`, `agent.ts`)

The HTTP organizer transport and the generative-model invocation are
external collaborators; their outcomes are parameters:
  * `resp` — the organizer endpoint's response (`ok` status, and the body
    `res.json()` produced: `none` when the body was not valid JSON, which
    makes `res.json()` throw);
  * `modelResult` — the generative model's raw text, or `.error` when no
    request could be made / it failed (any thrown error is caught and the
    tier falls through).
The request payloads (instructions and the capped file summaries) do not
influence the control flow modelled here. -/

/-- JS object property read with JSON.parse's duplicate-key semantics
(the last occurrence wins). -/
def jsLookup : List (String × Json) → String → Option Json
  | [], _ => none
  | (k0, v) :: rest, k =>
    match jsLookup rest k with
    | some v' => some v'
    | none => if k0 = k then some v else none

/-- `data.moves` on an arbitrary JS value: own property of objects,
`undefined` elsewhere (the `data === null` TypeError case is handled by
the caller). -/
def jsGetField (j : Json) (k : String) : Option Json :=
  match j with
  | .obj kvs => jsLookup kvs k
  | _ => none

/-- Truthiness of a JSON number literal: some mantissa digit nonzero. -/
def numLitTruthy (lit : String) : Bool :=
  (lit.data.takeWhile (fun c => c != 'e' && c != 'E')).any
    (fun c => isDigit c && c != '0')

/-- JS truthiness of a parsed JSON value. -/
def jsTruthyJson (j : Json) : Bool :=
  match j with
  | .null => false
  | .bool b => b
  | .str s => s ≠ ""
  | .num lit => numLitTruthy lit
  | .arr _ => true
  | .obj _ => true

/-- One element of the zod schema `z.object({from,to,reason: z.string()})`
(unknown keys are stripped). -/
def moveOfJson (j : Json) : Option MoveOp :=
  match j with
  | .obj kvs =>
    match jsLookup kvs "from", jsLookup kvs "to", jsLookup kvs "reason" with
    | some (.str f), some (.str t), some (.str r) => some ⟨f, t, r⟩
    | _, _, _ => none
  | _ => none

def movesListOf : List Json → Option (List MoveOp)
  | [] => some []
  | x :: xs =>
    match moveOfJson x with
    | none => none
    | some m =>
      match movesListOf xs with
      | none => none
      | some ms => some (m :: ms)

/-- The zod schema `z.object({ moves: z.array(moveSchema).optional() })`:
`some none` is success with `moves` undefined; `none` is a safeParse
failure (non-object, or a present `moves` that is not a valid array —
zod's `.optional()` accepts only `undefined`, not `null`). -/
def zodMoves (j : Json) : Option (Option (List MoveOp)) :=
  match j with
  | .obj kvs =>
    match jsLookup kvs "moves" with
    | none => some none
    | some (.arr xs) =>
      match movesListOf xs with
      | some ms => some (some ms)
      | none => none
    | some _ => none
  | _ => none

/-- The direct generative tier of `tryLlmOrganize`: requires a credential,
catches any request error, extracts JSON permissively, validates with the
zod schema, and returns `{moves: parsed ?? [], deletions: []}` — note it
returns a plan (possibly empty) whenever the model call itself succeeded,
and `null` only when no credential is set or an exception occurred. -/
def tier2Gemini (apiKey : Option String) (modelResult : Except Unit String) :
    Option Plan :=
  match apiKey with
  | none => none
  | some _ =>
    match modelResult with
    | .error _ => none
    | .ok text =>
      let moves : List MoveOp :=
        match extractJson text with
        | none => []
        | some j =>
          if jsTruthyJson j then
            match zodMoves j with
            | some (some ms) => ms
            | some none => []
            | none => []
          else []
      some { moves := moves, deletions := [] }

/-- The organizer endpoint's observed response: HTTP ok flag and the
parsed body (`none` when `res.json()` threw on invalid JSON). -/
structure OrganizerResp where
  ok : Bool
  body : Option Json

/-- A string field of a wire move object; the TypeScript cast
`(await res.json()) as {moves?: ...}` performs no validation, so missing
fields coerce to the empty string here (no claim depends on malformed
wire moves). -/
def coerceStr (oj : Option Json) : String :=
  match oj with
  | some (.str s) => s
  | _ => ""

def coerceMove (j : Json) : MoveOp :=
  match j with
  | .obj kvs =>
    ⟨coerceStr (jsLookup kvs "from"), coerceStr (jsLookup kvs "to"),
     coerceStr (jsLookup kvs "reason")⟩
  | _ => ⟨"", "", ""⟩

/-- `data.moves || []` on the unvalidated organizer body: `undefined` and
falsy values yield `[]`; a truthy array passes through. -/
def movesFromWire (mj : Option Json) : List MoveOp :=
  match mj with
  | none => []
  | some v =>
    if jsTruthyJson v then
      match v with
      | .arr xs => xs.map coerceMove
      | _ => []
    else []

/-- Embedding of `tryLlmOrganize` (`agent.ts`). Tier 1 runs when
`LLM_BASE_URL` is configured: a non-ok status or a JSON parse error is
thrown and caught (fall through); a JSON `null` body makes `data.moves`
throw a TypeError, also caught (fall through); any other body yields
`{moves: data.moves || [], deletions: []}`. Otherwise tier 2 runs. -/
def tryLlmOrganize (llmBase : Option String) (resp : OrganizerResp)
    (apiKey : Option String) (modelResult : Except Unit String) : Option Plan :=
  match llmBase with
  | none => tier2Gemini apiKey modelResult
  | some _ =>
    if resp.ok then
      match resp.body with
      | none => tier2Gemini apiKey modelResult
      | some .null => tier2Gemini apiKey modelResult
      | some j => some { moves := movesFromWire (jsGetField j "moves"), deletions := [] }
    else tier2Gemini apiKey modelResult

/-! ## Heuristic classifier and plan synthesis (`services.ts`) -/

/-- Embedding of `decideCategory` (`services.ts`); note the dead
`text.includes('by type') || true` guard. -/
def decideCategory (f : FInfo) (instructions : String) : String :=
  let ext := jsToLower f.ext
  let text := jsToLower instructions
  if jsIncludes text "by type" || true then
    if ["ts", "tsx", "js", "jsx", "py", "go", "java", "rb"].contains ext then "Code"
    else if ["md", "txt", "pdf", "doc", "docx"].contains ext then "Documents"
    else if ["png", "jpg", "jpeg", "gif", "webp", "svg"].contains ext then "Images"
    else if ["zip", "tar", "gz", "rar", "7z"].contains ext then "Archives"
    else if ["csv", "json", "xlsx"].contains ext then "Data"
    else "Misc"
  else "Misc"

/-- `path.posix.join(a, b, c)` for an absolute `a`: concatenate segments
and normalize. -/
def posixJoin3 (a b c : String) : String :=
  renderAbs (normalizeSegs (splitPath a ++ splitPath b ++ splitPath c))

/-- The move the heuristic fallback emits for one file, if any:
target `/demo/<category>/<name>`, emitted only when it differs from the
file's current path. -/
def heuristicMoveFor (instructions : String) (f : FInfo) : Option MoveOp :=
  let category := decideCategory f instructions
  let target := posixJoin3 "/demo" category f.name
  if f.path ≠ target then
    some ⟨f.path, target,
      "Place in " ++ category ++ " based on extension and instructions"⟩
  else none

/-- The heuristic fallback plan (never produces deletions). -/
def heuristicPlan (files : List FInfo) (instructions : String) : Plan :=
  { moves := files.filterMap (heuristicMoveFor instructions), deletions := [] }

/-- Embedding of `createPlanFromInstructions` (`services.ts`): snapshot
once, try the LLM tiers, fall back to the heuristic classifier. -/
def createPlanFromInstructions (llmBase : Option String) (resp : OrganizerResp)
    (apiKey : Option String) (modelResult : Except Unit String)
    (tree : FileNode) (instructions : String) : Plan :=
  let files := flattenFiles tree
  match tryLlmOrganize llmBase resp apiKey modelResult with
  | some p => p
  | none => heuristicPlan files instructions

/-! ## Plan application (`applyPlan`, `services.ts`; `POST /apply`,
`routes.ts`)

The writable filesystem is a flat map from absolute path to file content
(an abstract `Nat` identifier); `ensureDir` always succeeds on it.
`fse.move(from, to, {overwrite: false})` stats the source first (ENOENT),
rejects identical source and destination, then refuses an existing
destination. -/

/-- The mutable sandbox filesystem: absolute path to content. -/
abbrev Fs := String → Option Nat

inductive FsErr where
  | notFound
  | sameFile
  | moveConflict
  | pathEscape
deriving DecidableEq, Repr

/-- Model of `fse.move(src, dst, { overwrite: false })`. -/
def fseMove (fs : Fs) (src dst : String) : Except FsErr Fs :=
  match fs src with
  | none => .error .notFound
  | some c =>
    if src = dst then .error .sameFile
    else if (fs dst).isSome then .error .moveConflict
    else .ok (fun p => if p = dst then some c else if p = src then none else fs p)

/-- The `for (const m of plan.moves)` loop of `applyPlan`, with the local
`moved` counter; a thrown error aborts the loop, discarding the counter. -/
def applyMovesLoop (root : List String) : Fs → List MoveOp → Nat → Fs × Except FsErr Nat
  | fs, [], moved => (fs, .ok moved)
  | fs, m :: rest, moved =>
    match sanitizePath root m.frm with
    | .error _ => (fs, .error .pathEscape)
    | .ok fromAbs =>
      match sanitizePath root m.«to» with
      | .error _ => (fs, .error .pathEscape)
      | .ok toAbs =>
        match fseMove fs fromAbs toAbs with
        | .error e => (fs, .error e)
        | .ok fs2 => applyMovesLoop root fs2 rest (moved + 1)

/-- Embedding of `applyPlan`: the final filesystem (moves applied until
the first failure; nothing is rolled back) and either `{moved}` or the
propagated error, which carries no counter. -/
def applyPlan (root : List String) (fs : Fs) (plan : Plan) : Fs × Except FsErr Nat :=
  applyMovesLoop root fs plan.moves 0

/-- What the `POST /apply` route reports: `{ok:true, result:{moved}}` on
success, `{ok:false, error: message}` on failure — no moved count. -/
inductive ApplyResponse where
  | success (moved : Nat)
  | failure (error : String)
deriving DecidableEq, Repr

/-- Representative messages of the thrown errors (their text does not
matter to any claim). -/
def fsErrMessage : FsErr → String
  | .notFound => "ENOENT: no such file or directory"
  | .sameFile => "Source and destination must not be the same."
  | .moveConflict => "dest already exists."
  | .pathEscape => "Path escapes demo filesystem"

/-- Embedding of the `POST /apply` handler (`routes.ts`): run the plan,
answer `success moved` or `failure message`. -/
def applyRoute (root : List String) (fs : Fs) (plan : Plan) : Fs × ApplyResponse :=
  match applyPlan root fs plan with
  | (fs2, .ok n) => (fs2, .success n)
  | (fs2, .error e) => (fs2, .failure (fsErrMessage e))

/-- Specification-side single move: sanitize both endpoints, then move. -/
def applyOneMove (root : List String) (fs : Fs) (m : MoveOp) : Except FsErr Fs :=
  match sanitizePath root m.frm, sanitizePath root m.«to» with
  | .ok a, .ok b => fseMove fs a b
  | _, _ => .error .pathEscape

/-- Specification-side sequential application of a whole move list. -/
def applyMovesAll (root : List String) : Fs → List MoveOp → Except FsErr Fs
  | fs, [] => .ok fs
  | fs, m :: rest =>
    match applyOneMove root fs m with
    | .error e => .error e
    | .ok fs2 => applyMovesAll root fs2 rest

/-! ## Plan preview (`previewPlan`, `services.ts`) -/

/-- The `afterPaths` map lookup: built by `for m of moves:
set(m.from, m.to)`, so the last move for a path wins. -/
def lastAssoc : List MoveOp → String → Option String
  | [], _ => none
  | m :: rest, p =>
    match lastAssoc rest p with
    | some t => some t
    | none => if m.frm = p then some m.«to» else none

/-- `afterPaths.get(p) || p`: identity when no move mentions `p`, and also
when the mapped target is the empty string (falsy). -/
def mapPath (moves : List MoveOp) (p : String) : String :=
  match lastAssoc moves p with
  | some t => if t = "" then p else t
  | none => p

mutual
/-- Embedding of `cloneNode` inside `previewPlan`: directories are cloned
recursively with their own paths unchanged; file nodes get their path
rewritten. -/
def cloneNode (σ : String → String) : FileNode → FileNode
  | .file n p s e a m => .file n (σ p) s e a m
  | .dir n p cs a m => .dir n p (cloneList σ cs) a m

def cloneList (σ : String → String) : NodeList → NodeList
  | .nil => .nil
  | .cons x xs => .cons (cloneNode σ x) (cloneList σ xs)
end

/-- Embedding of `previewPlan` given the snapshot `before` that
`buildTree(DEMO_FS_PATH)` read: `{before, after}` with `after` the
path-relabelled clone. -/
def previewPlan (plan : Plan) (before : FileNode) : FileNode × FileNode :=
  (before, cloneNode (mapPath plan.moves) before)

/-- `previewPlan` threaded through an explicit world state: the code only
reads the filesystem (via `buildTree`), it never writes, so the world
component is returned unchanged. -/
def previewPlanFs {σ : Type} (snap : σ → FileNode) (world : σ) (plan : Plan) :
    σ × (FileNode × FileNode) :=
  (world, previewPlan plan (snap world))

mutual
/-- Forget file paths (specification device: two trees equal under
`eraseFilePaths` have identical structure, names, sizes, extensions,
timestamps and directory paths, differing at most in file paths). -/
def eraseFilePaths : FileNode → FileNode
  | .file n _ s e a m => .file n "" s e a m
  | .dir n p cs a m => .dir n p (eraseList cs) a m

def eraseList : NodeList → NodeList
  | .nil => .nil
  | .cons x xs => .cons (eraseFilePaths x) (eraseList xs)
end

/-! ## Theorems -/

/-! ### Path lemmas -/

theorem leadsChars_append (p q : List Char) : leadsChars p (p ++ q) = true := by
  induction p with
  | nil => rfl
  | cons a as ih => simp [leadsChars, ih]

theorem isUnder_iff_append (t r : List String) :
    isUnder t r = true ↔ ∃ s, t = r ++ s := by
  induction r generalizing t with
  | nil => simp [isUnder]
  | cons a as ih =>
    cases t with
    | nil =>
      simp only [isUnder, List.cons_append]
      constructor
      · intro h; exact absurd h (by simp)
      · rintro ⟨s, hs⟩; exact absurd hs (by simp)
    | cons b bs =>
      simp only [isUnder, Bool.and_eq_true, beq_iff_eq, ih, List.cons_append,
        List.cons.injEq]
      constructor
      · rintro ⟨hb, s, hs⟩; exact ⟨s, hb, hs⟩
      · rintro ⟨s, hb, hs⟩; exact ⟨hb, s, hs⟩

theorem renderTail_append (a b : List String) :
    renderTail (a ++ b) = renderTail a ++ renderTail b := by
  induction a with
  | nil => simp [renderTail]
  | cons x xs ih => simp [renderTail, ih, String.append_assoc]

theorem renderAbs_append_tail (r s : List String) :
    jsStartsWith (renderAbs (r ++ s)) (renderAbs r) = true := by
  unfold jsStartsWith
  cases r with
  | nil =>
    cases s with
    | nil => rfl
    | cons x xs =>
      simp only [renderAbs, List.nil_append]
      have : ("/" ++ x ++ renderTail xs).data = '/' :: (x ++ renderTail xs).data := by
        simp [String.data_append]
      rw [this]
      simp [leadsChars]
  | cons x xs =>
    simp only [renderAbs, List.cons_append, renderTail_append]
    have h2 : ("/" ++ x ++ (renderTail xs ++ renderTail s)).data
        = ("/" ++ x ++ renderTail xs).data ++ (renderTail s).data := by
      simp [String.data_append, String.append_assoc]
    rw [h2]
    exact leadsChars_append _ _

/-- Claim C1, resolution inside the root always succeeds (one half of the
amended claim; used standalone and in the C1 record). -/
theorem sanitizePath_ok_of_isUnder (root : List String) (rel : String)
    (h : isUnder (resolveSegs root rel) (normalizeSegs root) = true) :
    sanitizePath root rel = Except.ok (renderAbs (resolveSegs root rel)) := by
  obtain ⟨s, hs⟩ := (isUnder_iff_append _ _).mp h
  unfold sanitizePath
  rw [hs, renderAbs_append_tail]
  simp

/-- Claim C1 (code_bug evidence): the containment check of `sanitizePath`
is a textual `startsWith` on the normalized absolute path. For the sandbox
root `/data/demo_fs`, the client-supplied relative path `/../demo_fs2`
resolves to `/data/demo_fs2`, which is NOT a descendant of (or equal to)
the root, yet `sanitizePath` accepts it and returns the escaping absolute
path instead of failing with the path-escape error. -/
theorem sanitizePath_sibling_escape_accepted :
    sanitizePath ["data", "demo_fs"] "/../demo_fs2"
        = Except.ok "/data/demo_fs2"
      ∧ isUnder (resolveSegs ["data", "demo_fs"] "/../demo_fs2")
          (normalizeSegs ["data", "demo_fs"]) = false
      ∧ (∀ rel, isUnder (resolveSegs ["data", "demo_fs"] rel)
            (normalizeSegs ["data", "demo_fs"]) = true →
          sanitizePath ["data", "demo_fs"] rel
            = Except.ok (renderAbs (resolveSegs ["data", "demo_fs"] rel))) := by
  refine ⟨rfl, by decide, ?_⟩
  intro rel h
  exact sanitizePath_ok_of_isUnder _ _ h

theorem detectStep_split (now : Int) (root : List String)
    (hashOf : String → String) (st : List DeleteSuggestion × HashGroups)
    (f : FInfo) :
    detectStep now root hashOf st f
      = (st.1 ++ perFileSugs now f,
         extendGroups st.2 ((hashPairOf now root hashOf f).toList) ) := by
  by_cases hj : junkMatch f
  · simp [detectStep, perFileSugs, hashPairOf, hashedPred, hj, extendGroups]
  · by_cases hh : hashMatch f
    · by_cases hs : staleMatch now f <;>
        simp [detectStep, perFileSugs, hashPairOf, hashedPred, hj, hh, hs,
          extendGroups]
    · by_cases hs : staleMatch now f <;>
        simp [detectStep, perFileSugs, hashPairOf, hashedPred, hj, hh, hs,
          extendGroups]

theorem detectLoop_decomp (now : Int) (root : List String)
    (hashOf : String → String) (files : List FInfo)
    (s : List DeleteSuggestion) (g : HashGroups) :
    files.foldl (detectStep now root hashOf) (s, g)
      = (s ++ files.flatMap (perFileSugs now),
         extendGroups g (hashPairs now root hashOf files)) := by
  induction files generalizing s g with
  | nil => simp [hashPairs, extendGroups]
  | cons f fs ih =>
    rw [List.foldl_cons, detectStep_split]
    rw [ih]
    simp only [Prod.mk.injEq]
    constructor
    · simp
    · show extendGroups (extendGroups g _) _ = _
      simp only [hashPairs, List.filterMap_cons]
      cases hp : hashPairOf now root hashOf f with
      | none => simp [hp, extendGroups]
      | some pr => simp [hp, extendGroups]

theorem detectFiles_decomp (now : Int) (root : List String)
    (hashOf : String → String) (files : List FInfo) :
    detectFiles now root hashOf files
      = files.flatMap (perFileSugs now)
        ++ dupExpand (extendGroups [] (hashPairs now root hashOf files)) := by
  unfold detectFiles
  rw [detectLoop_decomp]
  simp

theorem detectGroups_decomp (now : Int) (root : List String)
    (hashOf : String → String) (files : List FInfo) :
    detectGroups now root hashOf files
      = extendGroups [] (hashPairs now root hashOf files) := by
  unfold detectGroups
  rw [detectLoop_decomp]

theorem detectFilesE_ok (now : Int) (root : List String)
    (hashOf : String → String) (files : List FInfo)
    (hsan : ∀ f ∈ files, (sanitizePath root f.path).isOk = true) :
    detectFilesE now root hashOf files
      = .ok (detectFiles now root hashOf files) := by
  unfold detectFilesE detectFiles
  have main : ∀ (fs : List FInfo) (st : List DeleteSuggestion × HashGroups),
      (∀ f ∈ fs, (sanitizePath root f.path).isOk = true) →
      fs.foldl (detectStepE now root hashOf) (.ok st)
        = .ok (fs.foldl (detectStep now root hashOf) st) := by
    intro fs
    induction fs with
    | nil => intro st _; rfl
    | cons f fs ih =>
      intro st hall
      have hf := hall f (by simp)
      rw [List.foldl_cons, List.foldl_cons]
      have : detectStepE now root hashOf (.ok st) f
          = .ok (detectStep now root hashOf st f) := by
        unfold detectStepE
        cases hs : sanitizePath root f.path with
        | ok a => rfl
        | error e => rw [hs] at hf; simp [Except.isOk, Except.toBool] at hf
      rw [this]
      exact ih _ (fun x hx => hall x (by simp [hx]))
  rw [main files ([], []) hsan]
  rfl

/-! ### Hash-group lemmas -/

theorem entryFor_upsert_same (g : HashGroups) (h p : String) :
    entryFor (upsertGroup g h p) h = some ((entryFor g h).getD [] ++ [p]) := by
  induction g with
  | nil => simp [upsertGroup, entryFor]
  | cons e rest ih =>
    obtain ⟨k, ps⟩ := e
    by_cases hk : k = h
    · subst hk; simp [upsertGroup, entryFor]
    · simp [upsertGroup, entryFor, hk, ih]

theorem entryFor_upsert_other (g : HashGroups) (h h' p : String)
    (hne : h' ≠ h) :
    entryFor (upsertGroup g h' p) h = entryFor g h := by
  induction g with
  | nil => simp [upsertGroup, entryFor, hne]
  | cons e rest ih =>
    obtain ⟨k, ps⟩ := e
    by_cases hk : k = h'
    · subst hk; simp [upsertGroup, entryFor, hne]
    · by_cases kh : k = h
      · subst kh; simp [upsertGroup, entryFor, hk]
      · simp [upsertGroup, entryFor, hk, kh, ih]

theorem entryFor_mem (g : HashGroups) (h : String) (ps : List String)
    (he : entryFor g h = some ps) : (h, ps) ∈ g := by
  induction g with
  | nil => simp [entryFor] at he
  | cons e rest ih =>
    obtain ⟨k, qs⟩ := e
    by_cases hk : k = h
    · subst hk
      simp [entryFor] at he
      simp [he]
    · simp [entryFor, hk] at he
      simp [ih he]

theorem entryFor_extendGroups (pairs : List (String × String))
    (g : HashGroups) (h : String) :
    entryFor (extendGroups g pairs) h
      = combineE (entryFor g h) ((pairs.filter (fun pr => pr.1 == h)).map (·.2)) := by
  induction pairs generalizing g with
  | nil => simp [extendGroups, combineE]
  | cons pr rest ih =>
    obtain ⟨k, p⟩ := pr
    show entryFor (extendGroups (upsertGroup g k p) rest) h = _
    rw [ih]
    by_cases hk : k = h
    · subst hk
      rw [entryFor_upsert_same]
      simp only [List.filter_cons, beq_self_eq_true, if_pos, List.map_cons]
      unfold combineE
      cases hrest : (rest.filter (fun pr => pr.1 == k)).map (·.2) with
      | nil => simp
      | cons q qs => simp
    · rw [entryFor_upsert_other g h k p hk]
      have : ((k, p) :: rest).filter (fun pr => pr.1 == h)
          = rest.filter (fun pr => pr.1 == h) := by
        simp [List.filter_cons, hk]
      rw [this]

theorem upsertGroup_paths (g : HashGroups) (k q : String)
    (e : String × List String) (he : e ∈ upsertGroup g k q)
    (p : String) (hp : p ∈ e.2) :
    (∃ x ∈ g, p ∈ x.2) ∨ p = q := by
  induction g with
  | nil =>
    rcases List.mem_singleton.mp (by simpa [upsertGroup] using he) with rfl
    right
    simpa using hp
  | cons x xs ihg =>
    obtain ⟨k0, ps0⟩ := x
    by_cases hk0 : k0 = k
    · subst hk0
      simp only [upsertGroup, if_pos rfl] at he
      rcases List.mem_cons.mp he with rfl | hxs
      · rcases List.mem_append.mp hp with hold | hq
        · exact Or.inl ⟨(k0, ps0), by simp, hold⟩
        · right; simpa using hq
      · exact Or.inl ⟨e, by simp [hxs], hp⟩
    · simp only [upsertGroup, if_neg hk0] at he
      rcases List.mem_cons.mp he with rfl | hxs
      · exact Or.inl ⟨(k0, ps0), by simp, hp⟩
      · rcases ihg hxs with ⟨x', hx', hpx⟩ | hq
        · exact Or.inl ⟨x', by simp [hx'], hpx⟩
        · exact Or.inr hq

/-- Every path stored in the association after folding pairs in is either
already present or the payload of one of the pairs. -/
theorem extendGroups_paths (pairs : List (String × String)) (g : HashGroups)
    (e : String × List String) (he : e ∈ extendGroups g pairs)
    (p : String) (hp : p ∈ e.2) :
    (∃ e' ∈ g, p ∈ e'.2) ∨ p ∈ pairs.map (·.2) := by
  induction pairs generalizing g with
  | nil =>
    left
    exact ⟨e, by simpa [extendGroups] using he, hp⟩
  | cons pr rest ih =>
    obtain ⟨k, q⟩ := pr
    have he' : e ∈ extendGroups (upsertGroup g k q) rest := he
    rcases ih (upsertGroup g k q) he' with ⟨e', he'', hpe⟩ | hmem
    · rcases upsertGroup_paths g k q e' he'' p hpe with ⟨x, hx, hpx⟩ | rfl
      · exact Or.inl ⟨x, hx, hpx⟩
      · right; simp
    · right; simp [hmem]

theorem dupExpand_mem_of_group (g : HashGroups) (h p0 : String)
    (rest : List String) (hmem : (h, p0 :: rest) ∈ g) (p : String)
    (hp : p ∈ rest) : dupSug p0 p ∈ dupExpand g := by
  unfold dupExpand
  rw [List.mem_flatMap]
  exact ⟨(h, p0 :: rest), hmem, by simp [List.mem_map]; exact ⟨p, hp, rfl⟩⟩

theorem dupExpand_file_mem (g : HashGroups) (s : DeleteSuggestion)
    (hs : s ∈ dupExpand g) : ∃ e ∈ g, s.file ∈ e.2 := by
  unfold dupExpand at hs
  rw [List.mem_flatMap] at hs
  obtain ⟨e, he, hse⟩ := hs
  refine ⟨e, he, ?_⟩
  cases hsnd : e.2 with
  | nil => rw [hsnd] at hse; simp at hse
  | cons p0 rest =>
    rw [hsnd] at hse
    simp only [List.mem_map] at hse
    obtain ⟨p, hp, rfl⟩ := hse
    simp [dupSug, hsnd, hp]

/-! ### Per-file suggestion lemmas -/

theorem perFileSugs_file (now : Int) (g : FInfo) (s : DeleteSuggestion)
    (hs : s ∈ perFileSugs now g) : s.file = g.path := by
  unfold perFileSugs at hs
  by_cases hj : junkMatch g
  · simp [hj] at hs
    simp [hs, junkSug]
  · by_cases hst : staleMatch now g
    · simp [hj, hst] at hs
      simp [hs, staleSug]
    · simp [hj, hst] at hs

theorem flatMap_perFileSugs_file (now : Int) (files : List FInfo)
    (s : DeleteSuggestion) (hs : s ∈ files.flatMap (perFileSugs now)) :
    ∃ h ∈ files, s.file = h.path := by
  rw [List.mem_flatMap] at hs
  obtain ⟨h, hh, hsh⟩ := hs
  exact ⟨h, hh, perFileSugs_file now h s hsh⟩

theorem nodup_paths_eq (files : List FInfo)
    (hnd : (files.map (·.path)).Nodup) (a b : FInfo)
    (ha : a ∈ files) (hb : b ∈ files) (hpath : a.path = b.path) : a = b := by
  have hp2 : files.Pairwise (fun x y => x.path ≠ y.path) :=
    (List.pairwise_map).mp hnd
  by_contra hne
  exact hp2.forall (fun x y h => (h ∘ Eq.symm)) ha hb hne hpath

theorem hashPairs_paths (now : Int) (root : List String)
    (hashOf : String → String) (files : List FInfo) (p : String) :
    p ∈ (hashPairs now root hashOf files).map (·.2)
      ↔ ∃ g ∈ files, hashedPred now g = true ∧ g.path = p := by
  induction files with
  | nil => simp [hashPairs]
  | cons f fs ih =>
    by_cases hp : hashedPred now f
    · simp only [hashPairs, List.filterMap_cons, hashPairOf, hp, if_true,
        List.map_cons, List.mem_cons]
      constructor
      · rintro (rfl | htail)
        · exact ⟨f, Or.inl rfl, hp, rfl⟩
        · obtain ⟨g, hg, hgp, rfl⟩ := ih.mp htail
          exact ⟨g, Or.inr hg, hgp, rfl⟩
      · rintro ⟨g, (rfl | hg), hgp, rfl⟩
        · exact Or.inl rfl
        · exact Or.inr (ih.mpr ⟨g, hg, hgp, rfl⟩)
    · have hpf : hashedPred now f = false := by simpa using hp
      simp only [hashPairs, List.filterMap_cons, hashPairOf, hpf,
        Bool.false_eq_true, if_false, List.mem_cons]
      rw [show fs.filterMap (hashPairOf now root hashOf)
            = hashPairs now root hashOf fs from rfl, ih]
      constructor
      · rintro ⟨g, hg, hgp, rfl⟩
        exact ⟨g, Or.inr hg, hgp, rfl⟩
      · rintro ⟨g, (rfl | hg), hgp, rfl⟩
        · exact absurd hgp hp
        · exact ⟨g, hg, hgp, rfl⟩

theorem dup_section_path_hashed (now : Int) (root : List String)
    (hashOf : String → String) (files : List FInfo) (s : DeleteSuggestion)
    (hs : s ∈ dupExpand (extendGroups [] (hashPairs now root hashOf files))) :
    ∃ g ∈ files, hashedPred now g = true ∧ g.path = s.file := by
  obtain ⟨e, he, hfe⟩ := dupExpand_file_mem _ s hs
  rcases extendGroups_paths _ [] e he s.file hfe with ⟨e', he', _⟩ | hmem
  · simp at he'
  · exact (hashPairs_paths now root hashOf files s.file).mp hmem

theorem countP_loop_junk (now : Int) (files : List FInfo) (f : FInfo)
    (hf : f ∈ files) (hjunk : junkMatch f = true)
    (hpw : files.Pairwise (fun x y => x.path ≠ y.path)) :
    (files.flatMap (perFileSugs now)).countP (fun s => s.file == f.path) = 1 := by
  induction files with
  | nil => simp at hf
  | cons g gs ih =>
    rw [List.pairwise_cons] at hpw
    obtain ⟨hg, hgs⟩ := hpw
    rw [List.flatMap_cons, List.countP_append]
    rcases List.mem_cons.mp hf with rfl | hfs
    · have h1 : (perFileSugs now f).countP (fun s => s.file == f.path) = 1 := by
        simp [perFileSugs, hjunk, junkSug]
      have h2 : (gs.flatMap (perFileSugs now)).countP
          (fun s => s.file == f.path) = 0 := by
        rw [List.countP_eq_zero]
        intro s hs
        obtain ⟨h, hh, hsh⟩ := flatMap_perFileSugs_file now gs s hs
        simp only [beq_iff_eq]
        rw [hsh]
        exact fun hc => hg h hh hc.symm
      omega
    · have h1 : (perFileSugs now g).countP (fun s => s.file == f.path) = 0 := by
        rw [List.countP_eq_zero]
        intro s hs
        have := perFileSugs_file now g s hs
        simp only [beq_iff_eq]
        rw [this]
        exact hg f hfs
      rw [h1, ih hfs hgs]

theorem hashPairs_filter (now : Int) (root : List String)
    (hashOf : String → String) (files : List FInfo) (hv : String) :
    ((hashPairs now root hashOf files).filter (fun pr => pr.1 == hv)).map (·.2)
      = (files.filter
          (fun g => hashedPred now g && (hashOf (absOf root g.path) == hv))).map
            (·.path) := by
  induction files with
  | nil => simp [hashPairs]
  | cons f fs ih =>
    by_cases hp : hashedPred now f
    · by_cases hq : hashOf (absOf root f.path) == hv
      · simp only [hashPairs, List.filterMap_cons, hashPairOf, hp, if_true,
          List.filter_cons, hq, Bool.and_self, List.map_cons, List.mem_cons]
        simp only [hashPairs] at ih
        simp [ih]
      · have hqf : (hashOf (absOf root f.path) == hv) = false := by
          simpa using hq
        simp only [hashPairs, List.filterMap_cons, hashPairOf, hp, if_true,
          List.filter_cons, hqf, Bool.and_false]
        simp only [hashPairs] at ih
        simp [ih, hp]
    · have hpf : hashedPred now f = false := by simpa using hp
      simp only [hashPairs, List.filterMap_cons, hashPairOf, hpf,
        Bool.false_eq_true, if_false, List.filter_cons, Bool.false_and]
      simp only [hashPairs] at ih
      simp [ih]

/-- Claim C8 (amended): every file matching the junk-artifact rule (junk
extension, leading `~`, or `.DS_Store` name) yields a suggestion with
confidence high and safeToDelete true, for every size, atime and content;
its reason reports the age as `floor((now - atime) / 86_400_000)` when the
atime is nonzero, and as `0` when the atime field is `0` (the code guards
with JS truthiness: `file.atimeMs ? ... : 0`). In particular any file
named `notes.bak` (extension `bak`) is always flagged. -/
theorem detect_junk_always_flagged (now : Int) (root : List String)
    (hashOf : String → String) (files : List FInfo)
    (hsan : ∀ f ∈ files, (sanitizePath root f.path).isOk = true)
    (f : FInfo) (hf : f ∈ files) (hjunk : junkMatch f = true) :
    detectFilesE now root hashOf files
        = .ok (detectFiles now root hashOf files)
      ∧ junkSug now f ∈ detectFiles now root hashOf files
      ∧ (junkSug now f).confidence = .high
      ∧ (junkSug now f).safeToDelete = true
      ∧ (junkSug now f).reason
          = "Temporary or system artifact ("
            ++ (if jsExtOf f = "" then f.name else jsExtOf f)
            ++ "), last accessed "
            ++ toString (if f.atimeMs ≠ 0 then Int.fdiv (now - f.atimeMs) 86400000 else 0)
            ++ " days ago" := by
  refine ⟨detectFilesE_ok now root hashOf files hsan, ?_, rfl, rfl, rfl⟩
  rw [detectFiles_decomp]
  apply List.mem_append_left
  rw [List.mem_flatMap]
  exact ⟨f, hf, by simp [perFileSugs, hjunk]⟩

/-- Witness for C8: a concrete `notes.bak` file (4 bytes, atime 0) in a
one-file snapshot is flagged junk. -/
theorem detect_junk_always_flagged_witness :
    junkSug 86400000 ⟨"notes.bak", "/notes.bak", 4, "bak", 0, 0⟩
        ∈ detectFiles 86400000 ["data", "demo_fs"] (fun _ => "h")
          [⟨"notes.bak", "/notes.bak", 4, "bak", 0, 0⟩]
      ∧ (junkSug 86400000 ⟨"notes.bak", "/notes.bak", 4, "bak", 0, 0⟩).confidence
        = .high :=
  ⟨(detect_junk_always_flagged 86400000 ["data", "demo_fs"] (fun _ => "h")
      [⟨"notes.bak", "/notes.bak", 4, "bak", 0, 0⟩] (by decide)
      ⟨"notes.bak", "/notes.bak", 4, "bak", 0, 0⟩ (by simp) (by decide)).2.1,
   (detect_junk_always_flagged 86400000 ["data", "demo_fs"] (fun _ => "h")
      [⟨"notes.bak", "/notes.bak", 4, "bak", 0, 0⟩] (by decide)
      ⟨"notes.bak", "/notes.bak", 4, "bak", 0, 0⟩ (by simp) (by decide)).2.2.1⟩

/-- Counterexample to C8 as stated: for a `notes.bak` file whose atime is
`0` (the Unix epoch) and `now` one day later, the claimed age formula
`floor((now - atime) / 86_400_000)` gives `1`, but the code reports age
`0` because `file.atimeMs` is falsy. -/
theorem detect_age_zero_atime_cex :
    detectFilesE 86400000 ["data", "demo_fs"] (fun _ => "h")
        [⟨"notes.bak", "/notes.bak", 4, "bak", 0, 0⟩]
      = .ok [⟨"/notes.bak",
          "Temporary or system artifact (bak), last accessed 0 days ago",
          .high, some 4, true⟩]
      ∧ Int.fdiv (86400000 - 0) 86400000 = 1
      ∧ "Temporary or system artifact (bak), last accessed 0 days ago"
          ≠ "Temporary or system artifact (bak), last accessed 1 days ago" :=
  ⟨rfl, by decide, by decide⟩

/-- Claim C2 (amended): detection rules are NOT cumulative — the junk rule
`continue`s, so a file matching the junk rule is excluded from the stale
and duplicate rules (it is never hashed) and appears in the suggestion
list exactly once, even when it is also a content-duplicate of an earlier
file or stale-large. -/
theorem detect_junk_short_circuit (now : Int) (root : List String)
    (hashOf : String → String) (files : List FInfo)
    (hsan : ∀ f ∈ files, (sanitizePath root f.path).isOk = true)
    (hnd : (files.map (·.path)).Nodup)
    (f : FInfo) (hf : f ∈ files) (hjunk : junkMatch f = true) :
    detectFilesE now root hashOf files
        = .ok (detectFiles now root hashOf files)
      ∧ (detectFiles now root hashOf files).countP
          (fun s => s.file == f.path) = 1 := by
  refine ⟨detectFilesE_ok now root hashOf files hsan, ?_⟩
  rw [detectFiles_decomp, List.countP_append]
  have hloop := countP_loop_junk now files f hf hjunk ((List.pairwise_map).mp hnd)
  have hdup : (dupExpand (extendGroups [] (hashPairs now root hashOf files))).countP
      (fun s => s.file == f.path) = 0 := by
    rw [List.countP_eq_zero]
    intro s hs
    obtain ⟨g, hg, hgp, hgpath⟩ :=
      dup_section_path_hashed now root hashOf files s hs
    simp only [beq_iff_eq]
    intro hc
    have : g = f := nodup_paths_eq files hnd g f hg hf (by rw [hgpath, hc])
    rw [this] at hgp
    simp [hashedPred, hjunk] at hgp
  omega

/-- Witness for C2 (amended): in a snapshot holding `a.txt` and a
same-content `b.bak`, the junk file `b.bak` gets exactly one suggestion. -/
theorem detect_junk_short_circuit_witness :
    (detectFiles 0 ["data", "demo_fs"] (fun _ => "h")
        [⟨"a.txt", "/a.txt", 5, "txt", 0, 0⟩,
         ⟨"b.bak", "/b.bak", 5, "bak", 0, 0⟩]).countP
      (fun s => s.file == "/b.bak") = 1 :=
  (detect_junk_short_circuit 0 ["data", "demo_fs"] (fun _ => "h")
    [⟨"a.txt", "/a.txt", 5, "txt", 0, 0⟩, ⟨"b.bak", "/b.bak", 5, "bak", 0, 0⟩]
    (by decide) (by decide)
    ⟨"b.bak", "/b.bak", 5, "bak", 0, 0⟩ (by simp) (by decide)).2

/-- Counterexample to C2 as stated: `b.bak` has a junk extension AND is a
content-duplicate (same hash, both sizes under 20 MiB) of the earlier
`a.txt`, so by the claim it should appear once per matched rule (at least
twice); the code emits exactly one suggestion for it (the junk rule
`continue`s past hashing), and the whole output is that single junk
suggestion. -/
theorem detect_rules_cumulative_cex :
    junkMatch ⟨"b.bak", "/b.bak", 5, "bak", 0, 0⟩ = true
      ∧ hashMatch ⟨"a.txt", "/a.txt", 5, "txt", 0, 0⟩ = true
      ∧ hashMatch ⟨"b.bak", "/b.bak", 5, "bak", 0, 0⟩ = true
      ∧ detectFilesE 0 ["data", "demo_fs"] (fun _ => "h")
          [⟨"a.txt", "/a.txt", 5, "txt", 0, 0⟩,
           ⟨"b.bak", "/b.bak", 5, "bak", 0, 0⟩]
        = .ok [⟨"/b.bak",
            "Temporary or system artifact (bak), last accessed 0 days ago",
            .high, some 5, true⟩]
      ∧ ([(⟨"/b.bak",
            "Temporary or system artifact (bak), last accessed 0 days ago",
            .high, some 5, true⟩ : DeleteSuggestion)]).countP
          (fun s => s.file == "/b.bak") = 1 :=
  ⟨by decide, by decide, by decide, rfl, by decide⟩

/-- Claim C4 (amended): among the files that actually reach hashing (not
matched by the junk rule, size nonzero and under 20 MiB), files with equal
content hash form one group in flattening order, and every member after
the first is reported as a duplicate of the first (confidence high,
safeToDelete true, reason naming the first path); a file that does not
reach hashing (junk-matched, size `0`, or size at least 20 MiB) never
appears as the flagged file of a duplicate suggestion. -/
theorem detect_duplicate_groups (now : Int) (root : List String)
    (hashOf : String → String) (files : List FInfo)
    (hsan : ∀ f ∈ files, (sanitizePath root f.path).isOk = true)
    (hnd : (files.map (·.path)).Nodup) :
    detectFilesE now root hashOf files
        = .ok (detectFiles now root hashOf files)
      ∧ (∀ hv f0 rest,
          files.filter
              (fun g => hashedPred now g && (hashOf (absOf root g.path) == hv))
            = f0 :: rest →
          ∀ g ∈ rest,
            dupSug f0.path g.path ∈ detectFiles now root hashOf files)
      ∧ (∀ f ∈ files, hashedPred now f = false →
          ∀ s ∈ dupExpand (detectGroups now root hashOf files),
            s.file ≠ f.path) := by
  refine ⟨detectFilesE_ok now root hashOf files hsan, ?_, ?_⟩
  · intro hv f0 rest hgrp g hg
    have hfilters := hashPairs_filter now root hashOf files hv
    rw [hgrp] at hfilters
    have hentry : entryFor (extendGroups [] (hashPairs now root hashOf files)) hv
        = some (f0.path :: rest.map (·.path)) := by
      rw [entryFor_extendGroups, hfilters]
      simp [combineE, entryFor]
    have hmem := entryFor_mem _ _ _ hentry
    have hdup := dupExpand_mem_of_group _ hv f0.path (rest.map (·.path)) hmem
      g.path (List.mem_map_of_mem _ hg)
    rw [detectFiles_decomp]
    exact List.mem_append_right _ hdup
  · intro f hf hnp s hs hc
    rw [detectGroups_decomp] at hs
    obtain ⟨g, hg, hgp, hgpath⟩ :=
      dup_section_path_hashed now root hashOf files s hs
    have : g = f := nodup_paths_eq files hnd g f hg hf (by rw [hgpath, hc])
    rw [this, hnp] at hgp
    exact Bool.false_ne_true hgp

/-- Witness for C4 (amended): two same-content small files `a.txt`,
`b.txt`; the second is reported as a duplicate of the first. -/
theorem detect_duplicate_groups_witness :
    dupSug "/a.txt" "/b.txt"
        ∈ detectFiles 0 ["data", "demo_fs"] (fun _ => "h")
          [⟨"a.txt", "/a.txt", 5, "txt", 0, 0⟩,
           ⟨"b.txt", "/b.txt", 5, "txt", 0, 0⟩] :=
  (detect_duplicate_groups 0 ["data", "demo_fs"] (fun _ => "h")
      [⟨"a.txt", "/a.txt", 5, "txt", 0, 0⟩, ⟨"b.txt", "/b.txt", 5, "txt", 0, 0⟩]
      (by decide) (by decide)).2.1 "h"
    ⟨"a.txt", "/a.txt", 5, "txt", 0, 0⟩ [⟨"b.txt", "/b.txt", 5, "txt", 0, 0⟩]
    (by decide) ⟨"b.txt", "/b.txt", 5, "txt", 0, 0⟩ (by simp)

/-- Counterexample to C4 as stated: two zero-byte files have identical
content and size under 20 MiB, yet neither is hashed (`file.size &&` is
falsy at `0`), so the detector returns no suggestion at all — the claimed
duplicate report for the second file is absent. -/
theorem detect_zero_size_dup_cex :
    (0 : Nat) < 20 * 1024 * 1024
      ∧ detectFilesE 0 ["data", "demo_fs"] (fun _ => "h")
          [⟨"a.txt", "/a.txt", 0, "txt", 0, 0⟩,
           ⟨"b.txt", "/b.txt", 0, "txt", 0, 0⟩]
        = .ok []
      ∧ dupSug "/a.txt" "/b.txt" ∉ ([] : List DeleteSuggestion) :=
  ⟨by decide, rfl, by simp⟩

/-! ### Heuristic-tier theorems -/

theorem decideCategory_instructions_irrelevant (f : FInfo) (i1 i2 : String) :
    decideCategory f i1 = decideCategory f i2 := by
  unfold decideCategory
  simp [Bool.or_true]

/-- Claim C7: the heuristic fallback's output is independent of the
instruction text — for every file list and any two instruction strings,
tier-3 synthesis produces exactly the same plan (the
`text.includes('by type') || true` guard is always true, and neither the
classification nor the emitted reason string depends on the text). -/
theorem heuristic_plan_instructions_irrelevant (files : List FInfo)
    (i1 i2 : String) :
    heuristicPlan files i1 = heuristicPlan files i2 := by
  unfold heuristicPlan
  congr 1
  apply List.filterMap_congr
  intro f _
  unfold heuristicMoveFor
  rw [decideCategory_instructions_irrelevant f i1 i2]

theorem decideCategory_mem (f : FInfo) (i : String) :
    decideCategory f i
      ∈ (["Code", "Documents", "Images", "Archives", "Data", "Misc"] :
          List String) := by
  unfold decideCategory
  simp only [Bool.or_true, if_true]
  split_ifs <;> simp

theorem string_of_data_eq (a b : String) (h : a.data = b.data) : a = b := by
  cases a
  cases b
  exact congrArg String.mk h

theorem cat_constant_facts (c : String)
    (hc : c ∈ (["Code", "Documents", "Images", "Archives", "Data", "Misc"] :
        List String)) :
    splitPath c = [c] ∧ c ≠ "." ∧ c ≠ ".." := by
  fin_cases hc <;> exact ⟨rfl, by decide, by decide⟩

theorem posixJoin3_clean (cat name : String)
    (hcseg : splitPath cat = [cat]) (hc1 : cat ≠ ".") (hc2 : cat ≠ "..")
    (hseg : splitPath name = [name]) (hd1 : name ≠ ".") (hd2 : name ≠ "..") :
    (posixJoin3 "/demo" cat name).data
      = "/demo/".data ++ cat.data ++ "/".data ++ name.data := by
  unfold posixJoin3
  rw [show splitPath "/demo" = ["demo"] from rfl, hcseg, hseg]
  have hn : normalizeSegs (["demo"] ++ [cat] ++ [name]) = ["demo", cat, name] := by
    simp [normalizeSegs, hc1, hc2, hd1, hd2]
  rw [hn]
  rw [show renderAbs ["demo", cat, name]
      = "/" ++ "demo" ++ ("/" ++ cat ++ ("/" ++ name ++ "")) from rfl]
  simp only [String.data_append]
  simp

theorem posixJoin3_demo_data (cat name : String)
    (hcat : cat ∈ (["Code", "Documents", "Images", "Archives", "Data", "Misc"] :
        List String))
    (hseg : splitPath name = [name]) (hd1 : name ≠ ".") (hd2 : name ≠ "..") :
    (posixJoin3 "/demo" cat name).data
      = "/demo/".data ++ cat.data ++ "/".data ++ name.data := by
  obtain ⟨h1, h2, h3⟩ := cat_constant_facts cat hcat
  exact posixJoin3_clean cat name h1 h2 h3 hseg hd1 hd2

theorem heuristicMoveFor_frm (i : String) (g : FInfo) (m : MoveOp)
    (h : heuristicMoveFor i g = some m) : m.frm = g.path := by
  unfold heuristicMoveFor at h
  simp only [] at h
  split at h
  · cases h
    rfl
  · exact absurd h (by simp)

/-- Claim C5 (amended): the heuristic tier classifies each file by
extension and targets `/demo/<category>/<originalFileName>` — a fixed
`demo` folder given in sandbox-relative form, not the sandbox root
itself; it emits a move exactly when the target differs from the file's
current path, every emitted move lands in the plan, and a file that is
already at its target (e.g. after the plan has been applied) produces no
move mentioning it (idempotence). -/
theorem heuristic_targets (files : List FInfo) (instructions : String)
    (f : FInfo) (hf : f ∈ files)
    (hseg : splitPath f.name = [f.name]) (hd1 : f.name ≠ ".")
    (hd2 : f.name ≠ "..") (hnd : (files.map (·.path)).Nodup) :
    (heuristicMoveFor instructions f
        = if f.path ≠ posixJoin3 "/demo" (decideCategory f instructions) f.name
          then some ⟨f.path,
              posixJoin3 "/demo" (decideCategory f instructions) f.name,
              "Place in " ++ decideCategory f instructions
                ++ " based on extension and instructions"⟩
          else none)
      ∧ (posixJoin3 "/demo" (decideCategory f instructions) f.name).data
          = "/demo/".data ++ (decideCategory f instructions).data
            ++ "/".data ++ f.name.data
      ∧ (∀ m, heuristicMoveFor instructions f = some m →
          m ∈ (heuristicPlan files instructions).moves)
      ∧ (f.path = posixJoin3 "/demo" (decideCategory f instructions) f.name →
          ∀ m ∈ (heuristicPlan files instructions).moves, m.frm ≠ f.path) := by
  refine ⟨rfl,
    posixJoin3_demo_data _ _ (decideCategory_mem f instructions) hseg hd1 hd2,
    ?_, ?_⟩
  · intro m hm
    exact List.mem_filterMap.mpr ⟨f, hf, hm⟩
  · intro htarget m hm hc
    obtain ⟨g, hg, hgm⟩ := List.mem_filterMap.mp hm
    have hfrm := heuristicMoveFor_frm instructions g m hgm
    have hgf : g = f :=
      nodup_paths_eq files hnd g f hg hf (by rw [← hfrm, hc])
    rw [hgf] at hgm
    unfold heuristicMoveFor at hgm
    rw [if_neg (by simpa using htarget)] at hgm
    exact Option.noConfusion hgm

/-- Witness for C5 (amended): a `report.pdf` already at
`/demo/Documents/report.pdf` yields no move on re-synthesis. -/
theorem heuristic_targets_witness :
    heuristicMoveFor "by type"
        ⟨"report.pdf", "/demo/Documents/report.pdf", 10, "pdf", 0, 0⟩ = none :=
  ((heuristic_targets
      [⟨"report.pdf", "/demo/Documents/report.pdf", 10, "pdf", 0, 0⟩] "by type"
      ⟨"report.pdf", "/demo/Documents/report.pdf", 10, "pdf", 0, 0⟩ (by simp)
      rfl (by decide) (by decide) (by decide)).1).trans (by decide)

/-- Counterexample to C5 as stated: `report.pdf` at the sandbox root is
moved to sandbox-relative `/demo/Documents/report.pdf` — i.e. into a
`demo` subdirectory of the sandbox root — not to the claimed
`<sandboxRoot>/Documents/report.pdf` (sandbox-relative
`/Documents/report.pdf`). -/
theorem heuristic_demo_prefix_cex :
    createPlanFromInstructions none ⟨false, none⟩ none (.error ())
        (.dir "demo_fs" "/"
          (.cons (.file "report.pdf" "/report.pdf" 10 "pdf" 0 0) .nil) 0 0)
        "organize by type"
      = { moves := [⟨"/report.pdf", "/demo/Documents/report.pdf",
            "Place in Documents based on extension and instructions"⟩],
          deletions := [] }
    ∧ ("/demo/Documents/report.pdf" : String) ≠ "/Documents/report.pdf" :=
  ⟨rfl, by decide⟩

/-! ### JSON-extraction and tier theorems -/

/-- Claim C9 (amended): `extractJson` is exactly the first-success chain of
three strategies — whole-response parse, then the first ```json-tagged
fenced block, then the widest `\x7b...\x7d` slice (text outside the
winning region is discarded by construction); and when all three fail the
result is `null`, upon which tier-2 synthesis returns the empty plan
`{moves: [], deletions: []}` rather than falling through to the heuristic
tier. -/
theorem extract_three_strategies :
    (∀ text, extractJson text
        = ((jsonParse text).orElse
            (fun _ => (fencedJsonBlock text).bind jsonParse)).orElse
          (fun _ => (widestBraces text).bind jsonParse))
    ∧ (∀ key text, extractJson text = none →
        tier2Gemini (some key) (.ok text)
          = some { moves := [], deletions := [] }) := by
  constructor
  · intro text
    unfold extractJson
    cases h1 : jsonParse text with
    | some v => simp [Option.orElse]
    | none =>
      cases h2 : fencedJsonBlock text with
      | none => simp [Option.orElse]
      | some c =>
        by_cases hc : c = ""
        · subst hc
          simp [Option.orElse, show jsonParse "" = none from rfl]
        · simp only [hc, if_true, ne_eq, not_false_iff]
          cases h3 : jsonParse c with
          | some v => simp [Option.orElse, hc, h3]
          | none => simp [Option.orElse, hc, h3]
  · intro key text h
    simp [tier2Gemini, h]

/-- Witness for C9 (amended): prose with no JSON at all makes all three
strategies fail and tier 2 returns the empty plan. -/
theorem extract_three_strategies_witness :
    tier2Gemini (some "key") (.ok "no json here")
      = some { moves := [], deletions := [] } :=
  extract_three_strategies.2 "key" "no json here" rfl

/-- Counterexample to C9 as stated: when extraction fails, tier-2
synthesis does NOT fall through to the next tier — `tryLlmOrganize`
returns the (non-null) empty plan, so the heuristic tier never runs. -/
theorem extract_no_fallthrough_cex :
    extractJson "no json here" = none
      ∧ tryLlmOrganize none ⟨false, none⟩ (some "key") (.ok "no json here")
        = some { moves := [], deletions := [] }
      ∧ some { moves := ([] : List MoveOp), deletions := ([] : List DeleteSuggestion) }
          ≠ (none : Option Plan) :=
  ⟨rfl, rfl, by simp⟩

/-- Claim C10 (amended): an HTTP-ok organizer response whose body is
parseable JSON other than `null` and has no `moves` field makes tier 1
succeed with the empty plan `{moves: [], deletions: []}` — it does not
fall through to the generative or heuristic tiers. (A JSON `null` body
instead makes `data.moves` throw a TypeError, which is caught and falls
through to tier 2.) -/
theorem tier1_missing_moves_empty_plan (base : String) (resp : OrganizerResp)
    (apiKey : Option String) (modelResult : Except Unit String) (j : Json)
    (hok : resp.ok = true) (hbody : resp.body = some j) (hnn : j ≠ Json.null)
    (hmoves : jsGetField j "moves" = none) :
    tryLlmOrganize (some base) resp apiKey modelResult
      = some { moves := [], deletions := [] } := by
  cases j with
  | null => exact absurd rfl hnn
  | bool b => simp [tryLlmOrganize, hok, hbody, movesFromWire, hmoves]
  | num l => simp [tryLlmOrganize, hok, hbody, movesFromWire, hmoves]
  | str s => simp [tryLlmOrganize, hok, hbody, movesFromWire, hmoves]
  | arr xs => simp [tryLlmOrganize, hok, hbody, movesFromWire, hmoves]
  | obj kvs => simp [tryLlmOrganize, hok, hbody, movesFromWire, hmoves]

/-- Witness for C10 (amended): an ok response with body `{}` yields the
empty plan from tier 1. -/
theorem tier1_missing_moves_empty_plan_witness :
    tryLlmOrganize (some "http://llm") ⟨true, some (Json.obj [])⟩ none
        (.error ())
      = some { moves := [], deletions := [] } :=
  tier1_missing_moves_empty_plan "http://llm" ⟨true, some (Json.obj [])⟩ none
    (.error ()) (Json.obj []) rfl rfl (fun h => Json.noConfusion h) rfl

/-- Counterexample to C10 as stated: a well-formed organizer response with
body `null` (valid JSON that certainly lacks a `moves` field) does NOT
yield the empty plan — `data.moves` throws, the error is caught, and
tier 1 falls through (here to a tier 2 with no credential, hence `none`). -/
theorem tier1_null_body_falls_through_cex :
    tryLlmOrganize (some "http://llm") ⟨true, some Json.null⟩ none (.error ())
        = none
      ∧ (none : Option Plan)
          ≠ some { moves := [], deletions := [] } :=
  ⟨rfl, by simp⟩

/-! ### Plan-application theorems -/

theorem applyMovesLoop_spec (root : List String) (ms : List MoveOp) :
    ∀ (fs : Fs) (acc : Nat),
      (∀ fs2 n, applyMovesLoop root fs ms acc = (fs2, .ok n) →
        n = acc + ms.length ∧ applyMovesAll root fs ms = .ok fs2)
      ∧ (∀ fs2 e, applyMovesLoop root fs ms acc = (fs2, .error e) →
          ∃ k m, k < ms.length ∧ ms[k]? = some m
            ∧ applyMovesAll root fs (ms.take k) = .ok fs2
            ∧ applyOneMove root fs2 m = .error e) := by
  induction ms with
  | nil =>
    intro fs acc
    constructor
    · intro fs2 n h
      simp only [applyMovesLoop, Prod.mk.injEq, Except.ok.injEq] at h
      obtain ⟨h1, h2⟩ := h
      exact ⟨by simp [h2], by simp [applyMovesAll, h1]⟩
    · intro fs2 e h
      simp [applyMovesLoop] at h
  | cons m rest ih =>
    intro fs acc
    cases hf : sanitizePath root m.frm with
    | error err =>
      constructor
      · intro fs2 n h
        unfold applyMovesLoop at h
        rw [hf] at h
        simp at h
      · intro fs2 e h
        unfold applyMovesLoop at h
        rw [hf] at h
        simp only [Prod.mk.injEq, Except.error.injEq] at h
        obtain ⟨rfl, rfl⟩ := h
        exact ⟨0, m, by simp, by simp, by simp [applyMovesAll],
          by simp [applyOneMove, hf]⟩
    | ok fromAbs =>
      cases ht : sanitizePath root m.«to» with
      | error err =>
        constructor
        · intro fs2 n h
          unfold applyMovesLoop at h
          rw [hf, ht] at h
          simp at h
        · intro fs2 e h
          unfold applyMovesLoop at h
          rw [hf, ht] at h
          simp only [Prod.mk.injEq, Except.error.injEq] at h
          obtain ⟨rfl, rfl⟩ := h
          exact ⟨0, m, by simp, by simp, by simp [applyMovesAll],
            by simp [applyOneMove, hf, ht]⟩
      | ok toAbs =>
        cases hm : fseMove fs fromAbs toAbs with
        | error e0 =>
          constructor
          · intro fs2 n h
            unfold applyMovesLoop at h
            rw [hf, ht] at h
            simp [hm] at h
          · intro fs2 e h
            unfold applyMovesLoop at h
            rw [hf, ht] at h
            simp only [hm, Prod.mk.injEq, Except.error.injEq] at h
            obtain ⟨rfl, rfl⟩ := h
            exact ⟨0, m, by simp, by simp, by simp [applyMovesAll],
              by simp [applyOneMove, hf, ht, hm]⟩
        | ok fsNext =>
          have hone : applyOneMove root fs m = .ok fsNext := by
            simp [applyOneMove, hf, ht, hm]
          constructor
          · intro fs2 n h
            unfold applyMovesLoop at h
            rw [hf, ht] at h
            simp only [hm] at h
            obtain ⟨h1, h2⟩ := (ih fsNext (acc + 1)).1 fs2 n h
            refine ⟨by simp [h1]; omega, ?_⟩
            simp [applyMovesAll, hone, h2]
          · intro fs2 e h
            unfold applyMovesLoop at h
            rw [hf, ht] at h
            simp only [hm] at h
            obtain ⟨k, m', hk, hm', hpre, herr⟩ := (ih fsNext (acc + 1)).2 fs2 e h
            refine ⟨k + 1, m', by simpa using hk, by simpa using hm', ?_, herr⟩
            simp [List.take_succ_cons, applyMovesAll, hone, hpre]

/-- Claim C3 (amended): apply is not atomic — moves run in plan order; a
missing source fails with the not-found error and an existing destination
with the move-conflict error; when move `k` fails, moves `0..k-1` remain
applied in the returned filesystem (no rollback) and the route reports
only the error message: the moved count is returned exclusively on full
success (the thrown error discards the loop's counter, so the caller does
NOT observe the partial movedCount). -/
theorem applyPlan_partial_spec (root : List String) (fs : Fs) (plan : Plan) :
    (∀ fs2 n, applyPlan root fs plan = (fs2, .ok n) →
        n = plan.moves.length ∧ applyMovesAll root fs plan.moves = .ok fs2
          ∧ applyRoute root fs plan = (fs2, .success n))
    ∧ (∀ fs2 e, applyPlan root fs plan = (fs2, .error e) →
        (∃ k m, k < plan.moves.length ∧ plan.moves[k]? = some m
          ∧ applyMovesAll root fs (plan.moves.take k) = .ok fs2
          ∧ applyOneMove root fs2 m = .error e)
        ∧ applyRoute root fs plan = (fs2, .failure (fsErrMessage e)))
    ∧ (∀ src dst, fs src = none → fseMove fs src dst = .error .notFound)
    ∧ (∀ src dst c, fs src = some c → src ≠ dst → (fs dst).isSome = true →
        fseMove fs src dst = .error .moveConflict) := by
  refine ⟨?_, ?_, ?_, ?_⟩
  · intro fs2 n h
    obtain ⟨h1, h2⟩ := (applyMovesLoop_spec root plan.moves fs 0).1 fs2 n h
    refine ⟨by simpa using h1, h2, ?_⟩
    unfold applyRoute applyPlan
    unfold applyPlan at h
    rw [h]
  · intro fs2 e h
    refine ⟨(applyMovesLoop_spec root plan.moves fs 0).2 fs2 e h, ?_⟩
    unfold applyRoute applyPlan
    unfold applyPlan at h
    rw [h]
  · intro src dst hsrc
    simp [fseMove, hsrc]
  · intro src dst c hsrc hne hdst
    simp [fseMove, hsrc, hne, hdst]

/-- Witness for C3 (amended): a plan whose single move has a missing
source; the route reports only the error message. -/
theorem applyPlan_partial_spec_witness :
    (applyRoute ["data", "demo_fs"] (fun _ => none)
        ⟨[⟨"/x.txt", "/y.txt", "r"⟩], []⟩).2
      = .failure "ENOENT: no such file or directory" := by
  have h := (applyPlan_partial_spec ["data", "demo_fs"] (fun _ => none)
      ⟨[⟨"/x.txt", "/y.txt", "r"⟩], []⟩).2.1 (fun _ => none) .notFound rfl
  rw [h.2]
  rfl

/-- Counterexample to C3 as stated: in a two-move plan whose first move
succeeds and whose second has a missing source, the first move remains
applied on disk, but the route's failure response carries only the error
message — there is no channel reporting the claimed partial movedCount of
`1` alongside the error. -/
theorem apply_count_unobservable_cex :
    (applyRoute ["data", "demo_fs"]
        (fun p => if p = "/data/demo_fs/a.txt" then some 7 else none)
        ⟨[⟨"/a.txt", "/b.txt", "r1"⟩, ⟨"/x.txt", "/y.txt", "r2"⟩], []⟩).2
      = .failure "ENOENT: no such file or directory"
    ∧ (∀ n : Nat,
        ApplyResponse.failure "ENOENT: no such file or directory"
          ≠ .success n)
    ∧ (applyRoute ["data", "demo_fs"]
        (fun p => if p = "/data/demo_fs/a.txt" then some 7 else none)
        ⟨[⟨"/a.txt", "/b.txt", "r1"⟩, ⟨"/x.txt", "/y.txt", "r2"⟩], []⟩).1
        "/data/demo_fs/b.txt" = some 7
    ∧ (applyRoute ["data", "demo_fs"]
        (fun p => if p = "/data/demo_fs/a.txt" then some 7 else none)
        ⟨[⟨"/a.txt", "/b.txt", "r1"⟩, ⟨"/x.txt", "/y.txt", "r2"⟩], []⟩).1
        "/data/demo_fs/a.txt" = none :=
  ⟨rfl, fun n h => ApplyResponse.noConfusion h, rfl, rfl⟩

/-! ### Preview theorems -/

mutual
theorem eraseFilePaths_clone (σ : String → String) (t : FileNode) :
    eraseFilePaths (cloneNode σ t) = eraseFilePaths t := by
  cases t with
  | file n p s e a m => rfl
  | dir n p cs a m => simp [cloneNode, eraseFilePaths, eraseList_clone σ cs]

theorem eraseList_clone (σ : String → String) (l : NodeList) :
    eraseList (cloneList σ l) = eraseList l := by
  cases l with
  | nil => rfl
  | cons x xs =>
    simp [cloneList, eraseList, eraseFilePaths_clone σ x, eraseList_clone σ xs]
end

mutual
theorem flattenFiles_clone (σ : String → String) (t : FileNode) :
    flattenFiles (cloneNode σ t)
      = (flattenFiles t).map (fun fi => { fi with path := σ fi.path }) := by
  cases t with
  | file n p s e a m => rfl
  | dir n p cs a m => simp [cloneNode, flattenFiles, flattenList_clone σ cs]

theorem flattenList_clone (σ : String → String) (l : NodeList) :
    flattenList (cloneList σ l)
      = (flattenList l).map (fun fi => { fi with path := σ fi.path }) := by
  cases l with
  | nil => rfl
  | cons x xs =>
    simp [cloneList, flattenList, flattenFiles_clone σ x, flattenList_clone σ xs]
end

/-- Claim C6 (amended): preview returns the world unchanged (it never
mutates the sandbox) and `before` verbatim; `after` is a structural clone
of `before` — erasing file paths makes it identical to `before` (same
directory nodes with unchanged paths, no synthesized intermediates, no
removals) — in which exactly the leaf file paths are rewritten through
`mapPath`: the last move for a path wins, a move whose target is the
empty string is ignored (JS `|| p` on a falsy map hit), and paths no move
mentions stay put. -/
theorem preview_shallow_relabel {σ : Type} (snap : σ → FileNode) (world : σ)
    (plan : Plan) :
    (previewPlanFs snap world plan).1 = world
      ∧ (previewPlanFs snap world plan).2.1 = snap world
      ∧ eraseFilePaths (previewPlanFs snap world plan).2.2
          = eraseFilePaths (snap world)
      ∧ flattenFiles (previewPlanFs snap world plan).2.2
          = (flattenFiles (snap world)).map
              (fun fi => { fi with path := mapPath plan.moves fi.path }) :=
  ⟨rfl, rfl, eraseFilePaths_clone _ _, flattenFiles_clone _ _⟩

/-- Counterexample to C6 as stated: a plan mapping `/a.txt` to the empty
string does mention the path, so the claimed rewrite through the mapping
would produce `""`, but the clone keeps `/a.txt` (the falsy lookup result
falls back to the original path). -/
theorem preview_empty_target_cex :
    lastAssoc [⟨"/a.txt", "", "r"⟩] "/a.txt" = some ""
      ∧ (previewPlan ⟨[⟨"/a.txt", "", "r"⟩], []⟩
          (.file "a.txt" "/a.txt" 1 "txt" 0 0)).2
        = .file "a.txt" "/a.txt" 1 "txt" 0 0
      ∧ ("/a.txt" : String) ≠ "" :=
  ⟨rfl, rfl, by decide⟩

